import Mathlib

/-!
Verification of the image-filter transforms of this repository
(`src/filters2.c++`, with `src/filters.cpp` a four-filter variant that
only declares the same transforms).  The five transforms `grayscale`,
`sepia`, `reflect`, `blur`, `edges` and the namespaced alternates
`image_filters::reflect`, `image_filters::blur` are embedded below as
pure functions over a list-of-lists pixel grid.

Numeric modelling.  The source computes with `float`/`double` and
`std::round`.  Every such expression in this code is tie-safe, so it is
embedded as exact arithmetic:

* `blur`: `std::round(total / pixelCount)` with `total ≤ 9 * 255 = 2295`
  an exact small integer in `float` and `pixelCount ∈ {1,...,9}`.  IEEE
  division is correctly rounded; an exact quotient equal to a
  half-integer `k + 1/2` (`k ≤ 573`) is representable in `float`, and
  any other quotient is at least `1/18` away from every half-integer
  while the division error is below `2^-14`.  Hence the float result of
  `std::round` equals rounding the exact rational quotient half away
  from zero (here: half up, all values nonnegative).
* `grayscale`: `(b + r + g) / 3.0` has exact quotient with fractional
  part in `{0, 1/3, 2/3}` — never a tie — and `double` error far below
  `1/6`, so `std::round` again equals exact half-up rounding.
* `edges`: `std::round(std::sqrt(gx^2 + gy^2))` with `|gx|,|gy| ≤ 1020`:
  squares and their sum (`≤ 2080800`) are exact in `double`, `sqrt` is
  correctly rounded, `√s` is never exactly a half-integer for integral
  `s` and is at least `8×10^-5` from one while the `sqrt` error is below
  `3×10^-13`; so the value is the nearest natural number to `√s`,
  embedded as `roundSqrt`.
* `sepia`: the `double` evaluation is NOT tie-safe: at some byte
  triples the exact matrix value is an exact `.5` tie and the `double`
  computation lands just below it (at (R,G,B) = (6,57,81) the exact red
  value is 61.5, the `double` computes 61.49999999999999… and the
  program writes 61).  The sepia embedding therefore models the
  `double` arithmetic itself: `fl` rounds a nonnegative rational to the
  nearest IEEE-754 `double` (round to nearest, ties to even), and
  `sepiaDbl` applies `fl` exactly where the source rounds — the
  compile-time rounding of the three decimal literals, each
  multiplication by the (exactly converted) byte value, and the two
  left-associated additions.  `⌊x + 1/2⌋` of that value then models
  `std::round` of the resulting `double`, which is exact.

`static_cast<BYTE>` is embedded as reduction modulo 256 (`toByte`,
`byteOfInt`); every cast in the transforms is applied to a value already
in `[0,255]`, which the theorems make explicit.
-/

/-- RGB pixel: three 8-bit channels, in the field order of the C struct
`RGBTRIPLE` (blue, green, red).  Channels are naturals; the C type
`BYTE = uint8_t` guarantees values below 256, recorded in `validImage`. -/
@[ext]
structure RGBTRIPLE where
  rgbtBlue : ℕ
  rgbtGreen : ℕ
  rgbtRed : ℕ
deriving Repr, DecidableEq

/-- Convenience constructor in (red, green, blue) order. -/
def rgb (r g b : ℕ) : RGBTRIPLE :=
  { rgbtBlue := b, rgbtGreen := g, rgbtRed := r }

/-- The in-memory image: `std::vector<std::vector<RGBTRIPLE>>`. -/
abbrev Grid := List (List RGBTRIPLE)

/-- Read `image[i][j]`; out-of-range reads (never reached under the
bounds checks of the source) default to a black pixel. -/
def getPix (image : Grid) (i j : ℕ) : RGBTRIPLE :=
  (image.getD i []).getD j (rgb 0 0 0)

/-- Structural validity of a grid handed to a transform: exactly
`height` rows, each of length `width`, all channels in the `BYTE`
range.  This is the datatype invariant the C++ vector-of-vectors of
`RGBTRIPLE` maintains by construction. -/
def validImage (height width : ℕ) (image : Grid) : Prop :=
  image.length = height ∧
  (∀ row ∈ image, row.length = width) ∧
  (∀ row ∈ image, ∀ p ∈ row,
    p.rgbtRed ≤ 255 ∧ p.rgbtGreen ≤ 255 ∧ p.rgbtBlue ≤ 255)

instance (height width : ℕ) (image : Grid) :
    Decidable (validImage height width image) := by
  unfold validImage; infer_instance

/-- `std::round` on the nonnegative rationals arising in this program:
round half away from zero, which for `0 ≤ x` is `⌊x + 1/2⌋`. -/
def stdRound (x : ℚ) : ℤ :=
  ⌊x + 1 / 2⌋

/-- `static_cast<BYTE>` on a nonnegative int: reduce modulo 256. -/
def toByte (n : ℕ) : ℕ :=
  n % 256

/-- `static_cast<BYTE>` on an int (mod-256 wraparound). -/
def byteOfInt (n : ℤ) : ℕ :=
  (n % 256).toNat

/-- The helper `BYTE clamp(int value, int min, int max)` of
`filters2.c++`. -/
def clamp (value mn mx : ℤ) : ℕ :=
  if value < mn then byteOfInt mn
  else if mx < value then byteOfInt mx
  else byteOfInt value

/-- The transform `grayscale(height, width, image)`: per pixel, the
average `std::round((blue + red + green) / 3.0)` is written to all
three channels.  The source loops over `row < height`, `col < width`;
on the grids it is called with (exactly `height` rows of `width`
pixels) this is the per-pixel map below. -/
def grayscale (height width : ℕ) (image : Grid) : Grid :=
  image.map (fun row => row.map (fun p =>
    let average : ℤ := stdRound
      (((p.rgbtBlue + p.rgbtRed + p.rgbtGreen : ℕ) : ℚ) / 3)
    { rgbtBlue := byteOfInt average,
      rgbtGreen := byteOfInt average,
      rgbtRed := byteOfInt average }))

/-- Round to the nearest integer, ties to the even one — the rounding
applied by every IEEE-754 `double` operation (round to nearest, ties to
even). -/
def rne (x : ℚ) : ℤ :=
  if x - ⌊x⌋ < 1 / 2 then ⌊x⌋
  else if 1 / 2 < x - ⌊x⌋ then ⌊x⌋ + 1
  else if 2 ∣ ⌊x⌋ then ⌊x⌋ else ⌊x⌋ + 1

/-- Binade search for `fl`: the candidate spacing `d` is halved until
`2^52 * d ≤ x`, then `x` is rounded to the nearest multiple of `d`,
ties to even. -/
def flAux : ℕ → ℚ → ℚ → ℚ
  | 0, d, x => d * rne (x / d)
  | n + 1, d, x =>
    if x < 2 ^ 52 * d then flAux n (d / 2) x
    else d * rne (x / d)

/-- Round a nonnegative rational to the nearest IEEE-754 `double`
(round to nearest, ties to even).  The search starts at the spacing
`2 ^ (9 - 52)` of the binade `[2^9, 2^10)` and halves it until
`2^52 * d ≤ x < 2^53 * d`, i.e. `d` is the ulp of `x`; the fuel 70
reaches every positive value down to `2^-61`.  Every value this
development applies `fl` to lies in `(2^-3, 2^9) ∪ {0}` (sepia matrix
constants, their products with byte values, and partial sums), where
this is exactly the IEEE `double` rounding — no overflow, no
subnormals, and the invariant `x < 2^53 * d` holds at every step. -/
def fl (x : ℚ) : ℚ :=
  if x ≤ 0 then 0 else flAux 70 ((2 ^ 43)⁻¹) x

/-- The `double` evaluation of one sepia channel `c1*R + c2*G + c3*B`
exactly as the source computes it: the decimal literals are rounded to
`double` at compile time (`fl c1`, …), the `BYTE` channel values
convert to `double` exactly, and each multiplication and each
left-associated addition rounds once. -/
def sepiaDbl (c1 c2 c3 : ℚ) (R G B : ℕ) : ℚ :=
  fl (fl (fl (fl c1 * R) + fl (fl c2 * G)) + fl (fl c3 * B))

/-- The transform `sepia(height, width, image)`: the fixed sepia matrix
is evaluated on the original channel values in `double` arithmetic
(`sepiaDbl`), rounded by `std::round` (half away from zero, here
`stdRound` on the nonnegative `double` value), clamped above by
`std::min(·, 255)`, below by `std::max(·, 0)`, and cast to `BYTE`. -/
def sepia (height width : ℕ) (image : Grid) : Grid :=
  image.map (fun row => row.map (fun p =>
    let sepiaRed : ℤ := stdRound
      (sepiaDbl 0.393 0.769 0.189 p.rgbtRed p.rgbtGreen p.rgbtBlue)
    let sepiaGreen : ℤ := stdRound
      (sepiaDbl 0.349 0.686 0.168 p.rgbtRed p.rgbtGreen p.rgbtBlue)
    let sepiaBlue : ℤ := stdRound
      (sepiaDbl 0.272 0.534 0.131 p.rgbtRed p.rgbtGreen p.rgbtBlue)
    { rgbtBlue := byteOfInt (max (min sepiaBlue 255) 0),
      rgbtGreen := byteOfInt (max (min sepiaGreen 255) 0),
      rgbtRed := byteOfInt (max (min sepiaRed 255) 0) }))

/-- One `std::swap(image[i][j], image[i][width - j - 1])`. -/
def swapPix (row : List RGBTRIPLE) (a b : ℕ) : List RGBTRIPLE :=
  (row.set a (row.getD b (rgb 0 0 0))).set b (row.getD a (rgb 0 0 0))

/-- The inner loop of `reflect`: for `j = 0, ..., width/2 - 1`, swap
columns `j` and `width - j - 1`. -/
def reflectRow (width : ℕ) (row : List RGBTRIPLE) : List RGBTRIPLE :=
  (List.range (width / 2)).foldl (fun r j => swapPix r j (width - j - 1)) row

/-- The transform `reflect(height, width, image)`: the swap loop above,
applied to each of the `height` rows. -/
def reflect (height width : ℕ) (image : Grid) : Grid :=
  image.map (reflectRow width)

/-- The 3×3 neighborhood offsets `(row offset, column offset)`, in the
iteration order of the nested `dx`/`dy` (blur) and `y`/`x` (edges)
loops of the source. -/
def window3 : List (ℤ × ℤ) :=
  [(-1, -1), (-1, 0), (-1, 1), (0, -1), (0, 0), (0, 1), (1, -1), (1, 0), (1, 1)]

/-- The running totals of the blur kernel loop.  The source accumulates
`pixelCount` in a `float` (top-level `blur`) resp. an `int`
(`image_filters::blur`); both are exact small integers. -/
structure BlurAcc where
  totalRed : ℕ
  totalGreen : ℕ
  totalBlue : ℕ
  pixelCount : ℕ
deriving Repr, DecidableEq

/-- The body of the 3×3 kernel loop of the top-level `blur`: the bounds
check `neighborX >= 0 && neighborX < height && neighborY >= 0 &&
neighborY < width` guards accumulation of the three channel totals and
the sample count. -/
def blurStep (height width : ℕ) (image : Grid) (i j : ℕ)
    (acc : BlurAcc) (d : ℤ × ℤ) : BlurAcc :=
  let neighborX : ℤ := (i : ℤ) + d.1
  let neighborY : ℤ := (j : ℤ) + d.2
  if 0 ≤ neighborX ∧ neighborX < (height : ℤ) ∧
      0 ≤ neighborY ∧ neighborY < (width : ℤ) then
    { totalRed := acc.totalRed +
        (getPix image neighborX.toNat neighborY.toNat).rgbtRed,
      totalGreen := acc.totalGreen +
        (getPix image neighborX.toNat neighborY.toNat).rgbtGreen,
      totalBlue := acc.totalBlue +
        (getPix image neighborX.toNat neighborY.toNat).rgbtBlue,
      pixelCount := acc.pixelCount + 1 }
  else acc

/-- The 3×3 kernel loop of the top-level `blur`. -/
def blurAcc (height width : ℕ) (image : Grid) (i j : ℕ) : BlurAcc :=
  window3.foldl (blurStep height width image i j)
    { totalRed := 0, totalGreen := 0, totalBlue := 0, pixelCount := 0 }

/-- The transform `blur(height, width, image)`.  The source snapshots
`image` into `copy`, then overwrites every cell `copy[i][j]` (for
`i < height`, `j < width`) with
`static_cast<BYTE>(std::round(total / pixelCount))` per channel — all
reads from the original `image` — and finally copies `copy` back; the
net effect on a `height × width` image is the grid built below. -/
def blur (height width : ℕ) (image : Grid) : Grid :=
  (List.range height).map (fun i => (List.range width).map (fun j =>
    let t := blurAcc height width image i j
    { rgbtBlue := byteOfInt (stdRound ((t.totalBlue : ℚ) / (t.pixelCount : ℚ))),
      rgbtGreen := byteOfInt (stdRound ((t.totalGreen : ℚ) / (t.pixelCount : ℚ))),
      rgbtRed := byteOfInt (stdRound ((t.totalRed : ℚ) / (t.pixelCount : ℚ))) }))

/-- The Sobel kernel `Gx` of `edges`, flattened row-major exactly as in
the source array. -/
def Gx : List ℤ :=
  [-1, 0, 1, -2, 0, 2, -1, 0, 1]

/-- The Sobel kernel `Gy` of `edges`. -/
def Gy : List ℤ :=
  [-1, -2, -1, 0, 0, 0, 1, 2, 1]

/-- The kernel loop of `edges` for one channel and one kernel: the
source iterates `y` from `i-1` to `i+1` and `x` from `j-1` to `j+1`
while `kernel_position` advances through the flattened kernel (also
past out-of-bounds positions); this is a fold over the offsets zipped
with the kernel entries.  The guard is the literal
`!(x < 0 || x >= width || y < 0 || y >= height)` of the source; the
source accumulates all six channel/kernel combinations in one loop,
equivalently six independent instances of this fold. -/
def sobelStep (height width : ℕ) (image : Grid) (i j : ℕ)
    (chan : RGBTRIPLE → ℕ) (acc : ℤ) (dk : (ℤ × ℤ) × ℤ) : ℤ :=
  let y : ℤ := (i : ℤ) + dk.1.1
  let x : ℤ := (j : ℤ) + dk.1.2
  if ¬ (x < 0 ∨ (width : ℤ) ≤ x ∨ y < 0 ∨ (height : ℤ) ≤ y) then
    acc + (chan (getPix image y.toNat x.toNat) : ℤ) * dk.2
  else acc

/-- The kernel loop of `edges` for one channel and one kernel. -/
def sobelAcc (height width : ℕ) (image : Grid) (i j : ℕ)
    (K : List ℤ) (chan : RGBTRIPLE → ℕ) : ℤ :=
  (window3.zip K).foldl (sobelStep height width image i j chan) 0

/-- `std::round(std::sqrt(s))` for a natural `s`: the nearest natural
number to `√s`.  It is `r + 1` (with `r = Nat.sqrt s`, so `r² ≤ s <
(r+1)²`) exactly when `√s ≥ r + 1/2`, i.e. `s ≥ r² + r + 1/4`, i.e.
`s - r² > r` for integral `s`; see `roundSqrt_le` / `roundSqrt_lt`. -/
def roundSqrt (s : ℕ) : ℕ :=
  if Nat.sqrt s < s - Nat.sqrt s * Nat.sqrt s then Nat.sqrt s + 1 else Nat.sqrt s

/-- The transform `edges(height, width, image)`.  As in `blur`, the
source snapshots the image, writes every cell of the copy from the
original, and copies back; per channel the written value is
`std::round(std::sqrt(pow(gx,2) + pow(gy,2)))` capped at 255 and cast
to `BYTE`. -/
def edges (height width : ℕ) (image : Grid) : Grid :=
  (List.range height).map (fun i => (List.range width).map (fun j =>
    let gxRed := sobelAcc height width image i j Gx RGBTRIPLE.rgbtRed
    let gxGreen := sobelAcc height width image i j Gx RGBTRIPLE.rgbtGreen
    let gxBlue := sobelAcc height width image i j Gx RGBTRIPLE.rgbtBlue
    let gyRed := sobelAcc height width image i j Gy RGBTRIPLE.rgbtRed
    let gyGreen := sobelAcc height width image i j Gy RGBTRIPLE.rgbtGreen
    let gyBlue := sobelAcc height width image i j Gy RGBTRIPLE.rgbtBlue
    let newRed : ℕ := roundSqrt (gxRed ^ 2 + gyRed ^ 2).toNat
    let newGreen : ℕ := roundSqrt (gxGreen ^ 2 + gyGreen ^ 2).toNat
    let newBlue : ℕ := roundSqrt (gxBlue ^ 2 + gyBlue ^ 2).toNat
    { rgbtBlue := toByte (if 255 < newBlue then 255 else newBlue),
      rgbtGreen := toByte (if 255 < newGreen then 255 else newGreen),
      rgbtRed := toByte (if 255 < newRed then 255 else newRed) }))

namespace image_filters

/-- The alternate `image_filters::reflect`: `std::reverse` on each row. -/
def reflect (image : Grid) : Grid :=
  image.map List.reverse

/-- The helper `image_filters::inBounds(x, y, height, width)`. -/
def inBounds (x y : ℤ) (height width : ℕ) : Bool :=
  decide (0 ≤ x) && decide (x < (height : ℤ)) &&
    decide (0 ≤ y) && decide (y < (width : ℤ))

/-- The body of the kernel loop of `image_filters::blur`, guarded by
`inBounds`. -/
def blurStep2 (height width : ℕ) (image : Grid) (i j : ℕ)
    (acc : BlurAcc) (d : ℤ × ℤ) : BlurAcc :=
  let nx : ℤ := (i : ℤ) + d.1
  let ny : ℤ := (j : ℤ) + d.2
  if inBounds nx ny height width then
    { totalRed := acc.totalRed + (getPix image nx.toNat ny.toNat).rgbtRed,
      totalGreen := acc.totalGreen + (getPix image nx.toNat ny.toNat).rgbtGreen,
      totalBlue := acc.totalBlue + (getPix image nx.toNat ny.toNat).rgbtBlue,
      pixelCount := acc.pixelCount + 1 }
  else acc

/-- The kernel loop of `image_filters::blur`. -/
def blurAcc2 (height width : ℕ) (image : Grid) (i j : ℕ) : BlurAcc :=
  window3.foldl (blurStep2 height width image i j)
    { totalRed := 0, totalGreen := 0, totalBlue := 0, pixelCount := 0 }

/-- The alternate `image_filters::blur`: height and width are derived
from the image itself (`image.size()`, `image[0].size()`), an empty
image is returned unchanged, and each channel is
`clamp(std::round(float(total) / count), 0, 255)`.  As for the
top-level `blur`, snapshot-write-swap amounts to building the grid of
computed cells. -/
def blur (image : Grid) : Grid :=
  if image.length = 0 then image else
  let height := image.length
  let width := (image.headD []).length
  (List.range height).map (fun i => (List.range width).map (fun j =>
    let t := blurAcc2 height width image i j
    { rgbtBlue := clamp (stdRound ((t.totalBlue : ℚ) / (t.pixelCount : ℚ))) 0 255,
      rgbtGreen := clamp (stdRound ((t.totalGreen : ℚ) / (t.pixelCount : ℚ))) 0 255,
      rgbtRed := clamp (stdRound ((t.totalRed : ℚ) / (t.pixelCount : ℚ))) 0 255 }))

end image_filters

/-! ## Specification-side definitions

These follow the wording of the specification (box-blur mean over the
existing 3×3 neighbors, Sobel weighted sum with zero-padding, sepia
matrix, clamping to `[0,255]`) and are compared against the embedded
code above in the claim theorems. -/

/-- Spec: whether the window offset `d`, applied at pixel `(i, j)`,
lands inside the grid boundary. -/
def inWindow (height width i j : ℕ) (d : ℤ × ℤ) : Bool :=
  decide (0 ≤ (i : ℤ) + d.1 ∧ (i : ℤ) + d.1 < (height : ℤ) ∧
    0 ≤ (j : ℤ) + d.2 ∧ (j : ℤ) + d.2 < (width : ℤ))

/-- The original-grid pixel at window offset `d` from `(i, j)`. -/
def sampleAt (image : Grid) (i j : ℕ) (d : ℤ × ℤ) : RGBTRIPLE :=
  getPix image ((i : ℤ) + d.1).toNat ((j : ℤ) + d.2).toNat

/-- Spec (Blur): the per-channel sum over the pixel itself and its
in-bounds 3×3 neighbors, out-of-bounds positions excluded. -/
def blurChanSum (height width : ℕ) (image : Grid) (i j : ℕ)
    (chan : RGBTRIPLE → ℕ) : ℕ :=
  (((window3.filter (inWindow height width i j)).map
    (fun d => chan (sampleAt image i j d)))).sum

/-- Spec (Blur): the divisor — the number of in-bounds positions of the
3×3 window, out-of-bounds positions excluded from the count. -/
def blurCount (height width i j : ℕ) : ℕ :=
  (window3.filter (inWindow height width i j)).length

/-- Spec: round to nearest (half up) and clamp to `[0, 255]`. -/
def clampTo255 (n : ℤ) : ℕ :=
  (max 0 (min 255 n)).toNat

/-- Spec (Blur): the per-channel box mean at `(i, j)`, rounded to
nearest and clamped to `[0, 255]`. -/
def blurSpecChan (height width : ℕ) (image : Grid) (i j : ℕ)
    (chan : RGBTRIPLE → ℕ) : ℕ :=
  clampTo255 (stdRound ((blurChanSum height width image i j chan : ℚ) /
    (blurCount height width i j : ℚ)))

/-- Spec (EdgeDetect): the horizontal Sobel weight matrix
`[-1 0 1; -2 0 2; -1 0 1]`, indexed by (row offset, column offset). -/
def gxWeight (dy dx : ℤ) : ℤ :=
  if dy = -1 ∧ dx = -1 then -1
  else if dy = -1 ∧ dx = 0 then 0
  else if dy = -1 ∧ dx = 1 then 1
  else if dy = 0 ∧ dx = -1 then -2
  else if dy = 0 ∧ dx = 0 then 0
  else if dy = 0 ∧ dx = 1 then 2
  else if dy = 1 ∧ dx = -1 then -1
  else if dy = 1 ∧ dx = 0 then 0
  else if dy = 1 ∧ dx = 1 then 1
  else 0

/-- Spec (EdgeDetect): the vertical Sobel weight matrix
`[-1 -2 -1; 0 0 0; 1 2 1]`. -/
def gyWeight (dy dx : ℤ) : ℤ :=
  if dy = -1 ∧ dx = -1 then -1
  else if dy = -1 ∧ dx = 0 then -2
  else if dy = -1 ∧ dx = 1 then -1
  else if dy = 0 ∧ dx = -1 then 0
  else if dy = 0 ∧ dx = 0 then 0
  else if dy = 0 ∧ dx = 1 then 0
  else if dy = 1 ∧ dx = -1 then 1
  else if dy = 1 ∧ dx = 0 then 2
  else if dy = 1 ∧ dx = 1 then 1
  else 0

/-- Spec (EdgeDetect): the channel value at integer coordinates, with
any position outside the grid boundary treated as a fully black pixel
(channel value 0, contributing a zero term rather than being excluded). -/
def sampleZero (height width : ℕ) (image : Grid) (chan : RGBTRIPLE → ℕ)
    (y x : ℤ) : ℤ :=
  if 0 ≤ y ∧ y < (height : ℤ) ∧ 0 ≤ x ∧ x < (width : ℤ) then
    (chan (getPix image y.toNat x.toNat) : ℤ)
  else 0

/-- Spec (EdgeDetect): a Sobel gradient as the weighted sum over the
3×3 neighborhood centered on `(i, j)`, with zero-padding outside the
grid. -/
def sobelSpec (height width : ℕ) (image : Grid) (i j : ℕ)
    (weight : ℤ → ℤ → ℤ) (chan : RGBTRIPLE → ℕ) : ℤ :=
  (window3.map (fun d => weight d.1 d.2 *
    sampleZero height width image chan ((i : ℤ) + d.1) ((j : ℤ) + d.2))).sum

/-- Spec (EdgeDetect): per-channel output
`round(sqrt(Gx^2 + Gy^2))` capped above at 255. -/
def edgeSpecChan (height width : ℕ) (image : Grid) (i j : ℕ)
    (chan : RGBTRIPLE → ℕ) : ℕ :=
  min 255 (roundSqrt ((sobelSpec height width image i j gxWeight chan) ^ 2 +
    (sobelSpec height width image i j gyWeight chan) ^ 2).toNat)

/-- Spec (Grayscale): the unweighted average of the three original
channels, rounded to nearest (ties upward) and clamped to `[0, 255]`. -/
def graySpecVal (p : RGBTRIPLE) : ℕ :=
  clampTo255 (stdRound
    (((p.rgbtRed + p.rgbtGreen + p.rgbtBlue : ℕ) : ℚ) / 3))

/-! ## Arithmetic helper lemmas -/

theorem byteOfInt_le (n : ℤ) : byteOfInt n ≤ 255 := by
  unfold byteOfInt
  have h1 : n % 256 < 256 := Int.emod_lt_of_pos n (by norm_num)
  omega

theorem toByte_le (n : ℕ) : toByte n ≤ 255 := by
  unfold toByte
  omega

theorem byteOfInt_eq (n : ℤ) (h0 : 0 ≤ n) (h255 : n ≤ 255) :
    byteOfInt n = n.toNat := by
  unfold byteOfInt
  rw [Int.emod_eq_of_lt h0 (by omega)]

theorem toByte_eq (n : ℕ) (h : n ≤ 255) : toByte n = n := by
  unfold toByte
  omega

theorem clamp_eq (n : ℤ) (h0 : 0 ≤ n) (h255 : n ≤ 255) :
    clamp n 0 255 = n.toNat := by
  unfold clamp
  rw [if_neg (by omega), if_neg (by omega), byteOfInt_eq n h0 h255]

theorem clampTo255_eq (n : ℤ) (h0 : 0 ≤ n) (h255 : n ≤ 255) :
    clampTo255 n = n.toNat := by
  unfold clampTo255
  omega

theorem stdRound_nonneg (x : ℚ) (hx : 0 ≤ x) : 0 ≤ stdRound x := by
  unfold stdRound
  have : (0 : ℚ) ≤ x + 1 / 2 := by linarith
  exact Int.le_floor.mpr (by exact_mod_cast this)

theorem stdRound_le (x : ℚ) (n : ℤ) (hx : x ≤ n) : stdRound x ≤ n := by
  unfold stdRound
  have h : x + 1 / 2 < (n : ℚ) + 1 := by linarith
  have := Int.floor_lt.mpr (by push_cast; linarith : x + 1 / 2 < ((n + 1 : ℤ) : ℚ))
  omega

theorem stdRound_intCast (n : ℤ) : stdRound (n : ℚ) = n := by
  unfold stdRound
  rw [add_comm, Int.floor_add_int]
  norm_num

theorem sqrt_eq_of {r s : ℕ} (h1 : r * r ≤ s) (h2 : s < (r + 1) * (r + 1)) :
    Nat.sqrt s = r :=
  Nat.le_antisymm (Nat.le_of_lt_succ (Nat.sqrt_lt.mpr h2)) (Nat.le_sqrt.mpr h1)

/-- Certification that `roundSqrt s` is at most `1/2` above `√s`:
`(2 * roundSqrt s - 1)^2 ≤ 4 * s` (trivially true when
`roundSqrt s = 0`). -/
theorem roundSqrt_lower (s : ℕ) :
    (2 * roundSqrt s - 1) * (2 * roundSqrt s - 1) ≤ 4 * s := by
  unfold roundSqrt
  have h1 := Nat.sqrt_le s
  have h2 := Nat.lt_succ_sqrt s
  split_ifs with h
  · have h3 : Nat.sqrt s * Nat.sqrt s + Nat.sqrt s + 1 ≤ s := by omega
    have h4 : 2 * (Nat.sqrt s + 1) - 1 = 2 * Nat.sqrt s + 1 := by omega
    rw [h4]
    nlinarith
  · have h4 : 2 * Nat.sqrt s - 1 ≤ 2 * Nat.sqrt s := by omega
    calc (2 * Nat.sqrt s - 1) * (2 * Nat.sqrt s - 1)
        ≤ 2 * Nat.sqrt s * (2 * Nat.sqrt s) := Nat.mul_le_mul h4 h4
      _ ≤ 4 * s := by nlinarith

/-- Certification that `roundSqrt s` is at most `1/2` below `√s`:
`4 * s ≤ (2 * roundSqrt s + 1)^2`, so `roundSqrt s` is a nearest
natural number to `√s`. -/
theorem roundSqrt_upper (s : ℕ) :
    4 * s ≤ (2 * roundSqrt s + 1) * (2 * roundSqrt s + 1) := by
  unfold roundSqrt
  have h1 := Nat.sqrt_le s
  have h2 := Nat.lt_succ_sqrt s
  split_ifs with h
  · nlinarith
  · have h3 : s ≤ Nat.sqrt s * Nat.sqrt s + Nat.sqrt s := by omega
    nlinarith

theorem roundSqrt_zero : roundSqrt 0 = 0 := by
  unfold roundSqrt
  norm_num

/-! ## Grid access helper lemmas -/

theorem getD_of_le {α : Type} (l : List α) (d : α) (n : ℕ)
    (h : l.length ≤ n) : l.getD n d = d := by
  rw [List.getD_eq_getElem?_getD, List.getElem?_eq_none h]
  rfl

theorem getPix_le {height width : ℕ} {image : Grid}
    (hg : validImage height width image) (i j : ℕ) :
    (getPix image i j).rgbtRed ≤ 255 ∧ (getPix image i j).rgbtGreen ≤ 255 ∧
      (getPix image i j).rgbtBlue ≤ 255 := by
  obtain ⟨hlen, hw, hpix⟩ := hg
  unfold getPix
  by_cases hi : i < image.length
  · rw [List.getD_eq_getElem _ _ hi]
    by_cases hj : j < image[i].length
    · rw [List.getD_eq_getElem _ _ hj]
      exact hpix image[i] (List.getElem_mem hi) _ (List.getElem_mem hj)
    · rw [getD_of_le image[i] (rgb 0 0 0) j (by omega)]
      simp [rgb]
  · rw [getD_of_le image [] i (by omega), getD_of_le [] (rgb 0 0 0) j (by simp)]
    simp [rgb]

theorem getPix_uniform {height width : ℕ} {image : Grid} {p : RGBTRIPLE}
    (hg : validImage height width image)
    (hu : ∀ row ∈ image, ∀ q ∈ row, q = p)
    {i j : ℕ} (hi : i < height) (hj : j < width) :
    getPix image i j = p := by
  obtain ⟨hlen, hw, _⟩ := hg
  unfold getPix
  have hi2 : i < image.length := by omega
  rw [List.getD_eq_getElem _ _ hi2]
  have hrow : image[i] ∈ image := List.getElem_mem hi2
  have hj2 : j < image[i].length := by rw [hw _ hrow]; omega
  rw [List.getD_eq_getElem _ _ hj2]
  exact hu _ hrow _ (List.getElem_mem hj2)

theorem getPix_build (h w : ℕ) (f : ℕ → ℕ → RGBTRIPLE) {i j : ℕ}
    (hi : i < h) (hj : j < w) :
    getPix ((List.range h).map (fun i => (List.range w).map (f i))) i j
      = f i j := by
  unfold getPix
  have h1 : i < ((List.range h).map
      (fun i => (List.range w).map (f i))).length := by
    simpa using hi
  rw [List.getD_eq_getElem _ _ h1, List.getElem_map, List.getElem_range]
  have h2 : j < ((List.range w).map (f i)).length := by simpa using hj
  rw [List.getD_eq_getElem _ _ h2, List.getElem_map, List.getElem_range]

/-! ## Kernel loop characterizations -/

theorem foldl_blurStep (height width : ℕ) (image : Grid) (i j : ℕ)
    (L : List (ℤ × ℤ)) : ∀ a : BlurAcc,
    L.foldl (blurStep height width image i j) a =
      { totalRed := a.totalRed + ((L.filter (inWindow height width i j)).map
          (fun d => (sampleAt image i j d).rgbtRed)).sum,
        totalGreen := a.totalGreen + ((L.filter (inWindow height width i j)).map
          (fun d => (sampleAt image i j d).rgbtGreen)).sum,
        totalBlue := a.totalBlue + ((L.filter (inWindow height width i j)).map
          (fun d => (sampleAt image i j d).rgbtBlue)).sum,
        pixelCount := a.pixelCount +
          (L.filter (inWindow height width i j)).length } := by
  induction L with
  | nil => intro a; simp
  | cons d L ih =>
    intro a
    rw [List.foldl_cons, List.filter_cons]
    by_cases hd : 0 ≤ (i : ℤ) + d.1 ∧ (i : ℤ) + d.1 < (height : ℤ) ∧
        0 ≤ (j : ℤ) + d.2 ∧ (j : ℤ) + d.2 < (width : ℤ)
    · rw [if_pos (by simpa [inWindow] using hd), ih]
      simp only [blurStep]
      rw [if_pos hd]
      simp only [List.map_cons, List.sum_cons, List.length_cons, sampleAt,
        BlurAcc.mk.injEq]
      refine ⟨by omega, by omega, by omega, by omega⟩
    · rw [if_neg (by simpa [inWindow] using hd), ih]
      simp only [blurStep]
      rw [if_neg hd]

theorem blurAcc_eq (height width : ℕ) (image : Grid) (i j : ℕ) :
    blurAcc height width image i j =
      { totalRed := blurChanSum height width image i j RGBTRIPLE.rgbtRed,
        totalGreen := blurChanSum height width image i j RGBTRIPLE.rgbtGreen,
        totalBlue := blurChanSum height width image i j RGBTRIPLE.rgbtBlue,
        pixelCount := blurCount height width i j } := by
  unfold blurAcc blurChanSum blurCount
  rw [foldl_blurStep]
  simp

theorem one_le_blurCount {height width i j : ℕ}
    (hi : i < height) (hj : j < width) :
    1 ≤ blurCount height width i j := by
  have hmem : ((0 : ℤ), (0 : ℤ)) ∈ window3.filter (inWindow height width i j) := by
    rw [List.mem_filter]
    refine ⟨by simp [window3], ?_⟩
    simp only [inWindow, decide_eq_true_eq]
    constructor
    · omega
    · constructor
      · omega
      · omega
  exact List.length_pos_of_mem hmem

theorem blurChanSum_le {height width : ℕ} {image : Grid} (i j : ℕ)
    (chan : RGBTRIPLE → ℕ)
    (hchan : ∀ a b, chan (getPix image a b) ≤ 255) :
    blurChanSum height width image i j chan ≤
      255 * blurCount height width i j := by
  unfold blurChanSum blurCount
  have h := List.sum_le_card_nsmul
    ((window3.filter (inWindow height width i j)).map
      (fun d => chan (sampleAt image i j d))) 255 ?_
  · simpa [mul_comm] using h
  · intro x hx
    rw [List.mem_map] at hx
    obtain ⟨d, _, rfl⟩ := hx
    exact hchan _ _

/-- The value a blur implementation writes for one channel equals the
spec's rounded-and-clamped box mean; in particular it already lies in
`[0, 255]` so both the plain `BYTE` cast and `clamp` are the identity. -/
theorem blur_cell_eq {height width : ℕ} {image : Grid} {i j : ℕ}
    (hi : i < height) (hj : j < width) (chan : RGBTRIPLE → ℕ)
    (hchan : ∀ a b, chan (getPix image a b) ≤ 255) :
    byteOfInt (stdRound ((blurChanSum height width image i j chan : ℚ) /
        (blurCount height width i j : ℚ))) =
      blurSpecChan height width image i j chan := by
  have hC : 1 ≤ blurCount height width i j := one_le_blurCount hi hj
  have hS : blurChanSum height width image i j chan ≤
      255 * blurCount height width i j := blurChanSum_le i j chan hchan
  have hCpos : (0 : ℚ) < (blurCount height width i j : ℚ) := by
    exact_mod_cast hC
  have hx0 : (0 : ℚ) ≤ (blurChanSum height width image i j chan : ℚ) /
      (blurCount height width i j : ℚ) :=
    div_nonneg (by positivity) (le_of_lt hCpos)
  have hx255 : (blurChanSum height width image i j chan : ℚ) /
      (blurCount height width i j : ℚ) ≤ 255 := by
    rw [div_le_iff₀ hCpos]
    exact_mod_cast hS
  have h0 := stdRound_nonneg _ hx0
  have h255 := stdRound_le _ 255 hx255
  unfold blurSpecChan clampTo255
  rw [byteOfInt_eq _ h0 h255]
  omega

theorem blurCount_interior {height width i j : ℕ}
    (hi0 : 0 < i) (hi1 : i < height - 1) (hj0 : 0 < j) (hj1 : j < width - 1) :
    blurCount height width i j = 9 := by
  unfold blurCount
  rw [List.filter_eq_self.mpr ?_]
  · rfl
  · intro d hd
    simp only [window3] at hd
    fin_cases hd <;> simp [inWindow] <;> omega

theorem inWindow_iff (height width i j : ℕ) (d : ℤ × ℤ) :
    inWindow height width i j d = true ↔
      (0 ≤ (i : ℤ) + d.1 ∧ (i : ℤ) + d.1 < (height : ℤ) ∧
        0 ≤ (j : ℤ) + d.2 ∧ (j : ℤ) + d.2 < (width : ℤ)) := by
  simp [inWindow]

theorem filter_length_eq_countP {α : Type} (p : α → Bool) (l : List α) :
    (l.filter p).length = l.countP p := by
  induction l with
  | nil => rfl
  | cons a l ih =>
    rw [List.filter_cons, List.countP_cons]
    by_cases h : p a = true
    · rw [if_pos h, if_pos h, List.length_cons, ih]
    · rw [if_neg h, if_neg h, ih]
      omega

/-- The number of offsets in `{-1, 0, 1}` keeping coordinate `k` inside
`[0, n)`; the blur divisor factors as a product of two of these. -/
def axisCount (n k : ℕ) : ℕ :=
  ([-1, 0, 1] : List ℤ).countP
    (fun d => decide (0 ≤ (k : ℤ) + d ∧ (k : ℤ) + d < (n : ℤ)))

theorem indicator_split {A B C D : Prop} [Decidable A] [Decidable B]
    [Decidable C] [Decidable D] :
    (if A ∧ B ∧ C ∧ D then (1 : ℕ) else 0) =
      (if A ∧ B then 1 else 0) * (if C ∧ D then 1 else 0) := by
  by_cases hA : A <;> by_cases hB : B <;> by_cases hC : C <;>
    by_cases hD : D <;> simp [hA, hB, hC, hD]

theorem blurCount_eq_mul (height width i j : ℕ) :
    blurCount height width i j = axisCount height i * axisCount width j := by
  unfold blurCount axisCount
  rw [filter_length_eq_countP]
  simp only [window3, List.countP_cons, List.countP_nil, inWindow_iff,
    decide_eq_true_eq, indicator_split]
  ring

theorem axisCount_mid {n k : ℕ} (h0 : 0 < k) (h1 : k < n - 1) :
    axisCount n k = 3 := by
  unfold axisCount
  simp only [List.countP_cons, List.countP_nil, decide_eq_true_eq]
  split_ifs <;> omega

theorem axisCount_low {n k : ℕ} (h0 : k = 0) (h1 : 2 ≤ n) :
    axisCount n k = 2 := by
  subst h0
  unfold axisCount
  simp only [List.countP_cons, List.countP_nil, decide_eq_true_eq]
  split_ifs <;> omega

theorem axisCount_high {n k : ℕ} (h0 : k = n - 1) (h1 : 2 ≤ n) :
    axisCount n k = 2 := by
  subst h0
  unfold axisCount
  simp only [List.countP_cons, List.countP_nil, decide_eq_true_eq]
  split_ifs <;> omega

theorem blurCount_corner {height width i j : ℕ}
    (hh : 2 ≤ height) (hw : 2 ≤ width)
    (hi : i = 0 ∨ i = height - 1) (hj : j = 0 ∨ j = width - 1) :
    blurCount height width i j = 4 := by
  have ha : axisCount height i = 2 := by
    rcases hi with hi | hi
    · exact axisCount_low hi hh
    · exact axisCount_high hi hh
  have hb : axisCount width j = 2 := by
    rcases hj with hj | hj
    · exact axisCount_low hj hw
    · exact axisCount_high hj hw
  rw [blurCount_eq_mul, ha, hb]

theorem blurCount_edge_row {height width i j : ℕ}
    (hh : 2 ≤ height) (hi : i = 0 ∨ i = height - 1)
    (hj0 : 0 < j) (hj1 : j < width - 1) :
    blurCount height width i j = 6 := by
  have ha : axisCount height i = 2 := by
    rcases hi with hi | hi
    · exact axisCount_low hi hh
    · exact axisCount_high hi hh
  rw [blurCount_eq_mul, ha, axisCount_mid hj0 hj1]

theorem blurCount_edge_col {height width i j : ℕ}
    (hw : 2 ≤ width) (hj : j = 0 ∨ j = width - 1)
    (hi0 : 0 < i) (hi1 : i < height - 1) :
    blurCount height width i j = 6 := by
  have hb : axisCount width j = 2 := by
    rcases hj with hj | hj
    · exact axisCount_low hj hw
    · exact axisCount_high hj hw
  rw [blurCount_eq_mul, axisCount_mid hi0 hi1, hb]

theorem blurStep2_eq (height width : ℕ) (image : Grid) (i j : ℕ)
    (acc : BlurAcc) (d : ℤ × ℤ) :
    image_filters.blurStep2 height width image i j acc d =
      blurStep height width image i j acc d := by
  simp only [image_filters.blurStep2, blurStep, image_filters.inBounds]
  by_cases h : 0 ≤ (i : ℤ) + d.1 ∧ (i : ℤ) + d.1 < (height : ℤ) ∧
      0 ≤ (j : ℤ) + d.2 ∧ (j : ℤ) + d.2 < (width : ℤ)
  · rw [if_pos ?_, if_pos h]
    simp only [Bool.and_eq_true, decide_eq_true_eq]
    exact ⟨⟨⟨h.1, h.2.1⟩, h.2.2.1⟩, h.2.2.2⟩
  · rw [if_neg ?_, if_neg h]
    simp only [Bool.and_eq_true, decide_eq_true_eq]
    intro hc
    exact h ⟨hc.1.1.1, hc.1.1.2, hc.1.2, hc.2⟩

theorem blurAcc2_eq (height width : ℕ) (image : Grid) (i j : ℕ) :
    image_filters.blurAcc2 height width image i j =
      blurAcc height width image i j := by
  unfold image_filters.blurAcc2 blurAcc
  have hstep : image_filters.blurStep2 height width image i j =
      blurStep height width image i j :=
    funext fun acc => funext fun d => blurStep2_eq height width image i j acc d
  rw [hstep]

/-- A small concrete test image used by the witnesses. -/
def sampleGrid : Grid :=
  [[rgb 10 20 30, rgb 40 50 60], [rgb 70 80 90, rgb 100 110 120]]

/-- C1: Blur replaces every pixel of a structurally valid grid with the
per-channel arithmetic mean of itself and its in-bounds 3×3 neighbors,
out-of-bounds positions excluded from both the sum and the divisor
count (a corner pixel averages 4 samples, a non-corner edge pixel 6, an
interior pixel 9 — each stated for grids large enough for the named
position class to exist), every sample read from the original grid, and
each mean rounded to nearest and clamped to `[0, 255]`. -/
theorem blur_box_mean_correct (height width : ℕ) (image : Grid) (i j : ℕ)
    (hg : validImage height width image) (hi : i < height) (hj : j < width) :
    getPix (blur height width image) i j =
      rgb (blurSpecChan height width image i j RGBTRIPLE.rgbtRed)
        (blurSpecChan height width image i j RGBTRIPLE.rgbtGreen)
        (blurSpecChan height width image i j RGBTRIPLE.rgbtBlue) ∧
    (2 ≤ height → 2 ≤ width → (i = 0 ∨ i = height - 1) →
      (j = 0 ∨ j = width - 1) → blurCount height width i j = 4) ∧
    (2 ≤ height → (i = 0 ∨ i = height - 1) → 0 < j → j < width - 1 →
      blurCount height width i j = 6) ∧
    (2 ≤ width → (j = 0 ∨ j = width - 1) → 0 < i → i < height - 1 →
      blurCount height width i j = 6) ∧
    (0 < i → i < height - 1 → 0 < j → j < width - 1 →
      blurCount height width i j = 9) := by
  refine ⟨?_, fun hh hw a b => blurCount_corner hh hw a b,
    fun hh a b c => blurCount_edge_row hh a b c,
    fun hw a b c => blurCount_edge_col hw a b c,
    fun a b c d => blurCount_interior a b c d⟩
  have hR : ∀ a b, RGBTRIPLE.rgbtRed (getPix image a b) ≤ 255 :=
    fun a b => (getPix_le hg a b).1
  have hG : ∀ a b, RGBTRIPLE.rgbtGreen (getPix image a b) ≤ 255 :=
    fun a b => (getPix_le hg a b).2.1
  have hB : ∀ a b, RGBTRIPLE.rgbtBlue (getPix image a b) ≤ 255 :=
    fun a b => (getPix_le hg a b).2.2
  unfold blur
  rw [getPix_build height width _ hi hj]
  simp only [blurAcc_eq]
  unfold rgb
  simp only [RGBTRIPLE.mk.injEq]
  exact ⟨blur_cell_eq hi hj _ hB, blur_cell_eq hi hj _ hG,
    blur_cell_eq hi hj _ hR⟩

theorem blur_box_mean_correct_witness :
    validImage 2 2 sampleGrid ∧
    getPix (blur 2 2 sampleGrid) 0 1 =
      rgb (blurSpecChan 2 2 sampleGrid 0 1 RGBTRIPLE.rgbtRed)
        (blurSpecChan 2 2 sampleGrid 0 1 RGBTRIPLE.rgbtGreen)
        (blurSpecChan 2 2 sampleGrid 0 1 RGBTRIPLE.rgbtBlue) :=
  ⟨by decide, (blur_box_mean_correct 2 2 sampleGrid 0 1 (by decide)
    (by decide) (by decide)).1⟩

/-- C10: for every pixel position inside the grid, the in-bounds sample
count accumulated by either blur implementation is at least 1 (the
center of the window always passes the bounds check), so the division
by the count is never a division by zero and blur is total over its
stated precondition. -/
theorem blur_count_positive (height width : ℕ) (image : Grid) (i j : ℕ)
    (hi : i < height) (hj : j < width) :
    1 ≤ (blurAcc height width image i j).pixelCount ∧
    1 ≤ (image_filters.blurAcc2 height width image i j).pixelCount := by
  have h1 : 1 ≤ (blurAcc height width image i j).pixelCount := by
    rw [blurAcc_eq]
    exact one_le_blurCount hi hj
  exact ⟨h1, by rw [blurAcc2_eq]; exact h1⟩

theorem blur_count_positive_witness :
    (0 : ℕ) < 2 ∧
    (1 ≤ (blurAcc 2 2 sampleGrid 0 0).pixelCount ∧
     1 ≤ (image_filters.blurAcc2 2 2 sampleGrid 0 0).pixelCount) :=
  ⟨by decide, blur_count_positive 2 2 sampleGrid 0 0 (by decide) (by decide)⟩

theorem blurChanSum_uniform {height width : ℕ} {image : Grid} {p : RGBTRIPLE}
    (hg : validImage height width image)
    (hu : ∀ row ∈ image, ∀ q ∈ row, q = p)
    {i j : ℕ} (hi : i < height) (hj : j < width) (chan : RGBTRIPLE → ℕ) :
    blurChanSum height width image i j chan =
      chan p * blurCount height width i j := by
  unfold blurChanSum blurCount
  have hmap : (window3.filter (inWindow height width i j)).map
      (fun d => chan (sampleAt image i j d)) =
      (window3.filter (inWindow height width i j)).map (fun _ => chan p) := by
    apply List.map_congr_left
    intro d hd
    rw [List.mem_filter] at hd
    obtain ⟨-, hdw⟩ := hd
    rw [inWindow_iff] at hdw
    unfold sampleAt
    rw [getPix_uniform hg hu (by omega) (by omega)]
  rw [hmap, List.map_const']
  rw [List.sum_replicate]
  rw [smul_eq_mul, mul_comm]

/-- C8: Blur is the identity on every uniform-color grid (in
particular on every 1×1 grid, which is uniform). -/
theorem blur_uniform_identity (height width : ℕ) (image : Grid)
    (p : RGBTRIPLE) (hg : validImage height width image)
    (hu : ∀ row ∈ image, ∀ q ∈ row, q = p) :
    blur height width image = image := by
  have himg : image = List.replicate height (List.replicate width p) := by
    rw [List.eq_replicate_iff]
    refine ⟨hg.1, ?_⟩
    intro row hrow
    rw [List.eq_replicate_iff]
    exact ⟨hg.2.1 row hrow, fun q hq => hu row hrow q hq⟩
  have hcell : ∀ i < height, ∀ j < width,
      getPix (blur height width image) i j = p := by
    intro i hi j hj
    have hp : p = getPix image i j := (getPix_uniform hg hu hi hj).symm
    have hpR : p.rgbtRed ≤ 255 := by rw [hp]; exact (getPix_le hg i j).1
    have hpG : p.rgbtGreen ≤ 255 := by rw [hp]; exact (getPix_le hg i j).2.1
    have hpB : p.rgbtBlue ≤ 255 := by rw [hp]; exact (getPix_le hg i j).2.2
    have hC : 1 ≤ blurCount height width i j := one_le_blurCount hi hj
    have hCne : ((blurCount height width i j : ℚ)) ≠ 0 := by
      exact_mod_cast Nat.one_le_iff_ne_zero.mp hC
    have hvalue : ∀ chan : RGBTRIPLE → ℕ, chan p ≤ 255 →
        byteOfInt (stdRound
          ((blurChanSum height width image i j chan : ℚ) /
            (blurCount height width i j : ℚ))) = chan p := by
      intro chan hchan
      rw [blurChanSum_uniform hg hu hi hj chan]
      have hdiv : ((chan p * blurCount height width i j : ℕ) : ℚ) /
          (blurCount height width i j : ℚ) = ((chan p : ℤ) : ℚ) := by
        push_cast
        field_simp
      rw [hdiv, stdRound_intCast]
      rw [byteOfInt_eq _ (by positivity) (by exact_mod_cast hchan)]
      simp
    unfold blur
    rw [getPix_build height width _ hi hj]
    simp only [blurAcc_eq]
    ext
    · exact hvalue RGBTRIPLE.rgbtBlue hpB
    · exact hvalue RGBTRIPLE.rgbtGreen hpG
    · exact hvalue RGBTRIPLE.rgbtRed hpR
  calc blur height width image
      = List.replicate height (List.replicate width p) := by
        rw [List.eq_replicate_iff]
        constructor
        · unfold blur
          simp
        · intro row hrow
          unfold blur at hrow
          rw [List.mem_map] at hrow
          obtain ⟨i, hi, rfl⟩ := hrow
          rw [List.mem_range] at hi
          rw [List.eq_replicate_iff]
          constructor
          · simp
          · intro q hq
            rw [List.mem_map] at hq
            obtain ⟨j, hj, rfl⟩ := hq
            rw [List.mem_range] at hj
            have := hcell i hi j hj
            unfold blur at this
            rw [getPix_build height width _ hi hj] at this
            exact this
    _ = image := himg.symm

theorem blur_uniform_identity_witness :
    validImage 1 1 [[rgb 10 20 30]] ∧
    blur 1 1 [[rgb 10 20 30]] = [[rgb 10 20 30]] :=
  ⟨by decide, blur_uniform_identity 1 1 [[rgb 10 20 30]] (rgb 10 20 30)
    (by decide) (by decide)⟩

theorem clamp_eq_clampTo255 (n : ℤ) : clamp n 0 255 = clampTo255 n := by
  unfold clamp clampTo255 byteOfInt
  split_ifs <;> omega

/-- The two blur implementations compute identical grids on every
structurally valid image: both perform float-division-then-round (the
same tie-safe computation, embedded identically), and the box mean of
byte values always lies in `[0, 255]`, where the plain `BYTE` cast of
the top-level `blur` and the `clamp` of `image_filters::blur`
coincide. -/
theorem blur_eq_blur2 (height width : ℕ) (image : Grid)
    (hg : validImage height width image) :
    blur height width image = image_filters.blur image := by
  have hR : ∀ a b, RGBTRIPLE.rgbtRed (getPix image a b) ≤ 255 :=
    fun a b => (getPix_le hg a b).1
  have hG : ∀ a b, RGBTRIPLE.rgbtGreen (getPix image a b) ≤ 255 :=
    fun a b => (getPix_le hg a b).2.1
  have hB : ∀ a b, RGBTRIPLE.rgbtBlue (getPix image a b) ≤ 255 :=
    fun a b => (getPix_le hg a b).2.2
  unfold image_filters.blur
  by_cases h0 : image.length = 0
  · rw [if_pos h0]
    have hh0 : height = 0 := by
      have := hg.1
      omega
    have hnil : image = [] := List.length_eq_zero.mp h0
    rw [hh0, hnil]
    rfl
  · rw [if_neg h0]
    have hh : image.length = height := hg.1
    have hwid : (image.headD []).length = width := by
      cases image with
      | nil => simp at h0
      | cons r rest => exact hg.2.1 r (by simp)
    rw [hh, hwid]
    unfold blur
    apply List.map_congr_left
    intro i hi
    rw [List.mem_range] at hi
    apply List.map_congr_left
    intro j hj
    rw [List.mem_range] at hj
    simp only [blurAcc2_eq, blurAcc_eq]
    simp only [RGBTRIPLE.mk.injEq]
    refine ⟨?_, ?_, ?_⟩
    · rw [clamp_eq_clampTo255, blur_cell_eq hi hj _ hB]
      rfl
    · rw [clamp_eq_clampTo255, blur_cell_eq hi hj _ hG]
      rfl
    · rw [clamp_eq_clampTo255, blur_cell_eq hi hj _ hR]
      rfl

/-- C4 counterexample: the claim that the two blur implementations
disagree on some structurally valid grid is false — they are
extensionally equal on all of them. -/
theorem blur_variants_differ_refuted :
    ¬ ∃ (height width : ℕ) (image : Grid),
      validImage height width image ∧
        blur height width image ≠ image_filters.blur image := by
  rintro ⟨h, w, g, hg, hne⟩
  exact hne (blur_eq_blur2 h w g hg)

/-- C4 amended: both blur implementations round the float quotient to
nearest in the same way (neither uses an integer-division path), their
per-channel values always lie in `[0, 255]` where the unclamped `BYTE`
cast and `clamp(..., 0, 255)` agree, and hence the two functions are
extensionally equal on every structurally valid grid. -/
theorem blur_variants_agree (height width : ℕ) (image : Grid)
    (hg : validImage height width image) :
    blur height width image = image_filters.blur image :=
  blur_eq_blur2 height width image hg

theorem blur_variants_agree_witness :
    validImage 2 2 [[rgb 0 0 0, rgb 1 1 1], [rgb 1 1 1, rgb 0 0 0]] ∧
    blur 2 2 [[rgb 0 0 0, rgb 1 1 1], [rgb 1 1 1, rgb 0 0 0]] =
      image_filters.blur [[rgb 0 0 0, rgb 1 1 1], [rgb 1 1 1, rgb 0 0 0]] :=
  ⟨by decide, blur_variants_agree 2 2
    [[rgb 0 0 0, rgb 1 1 1], [rgb 1 1 1, rgb 0 0 0]] (by decide)⟩

theorem foldl_sobelStep (height width : ℕ) (image : Grid) (i j : ℕ)
    (chan : RGBTRIPLE → ℕ) (L : List ((ℤ × ℤ) × ℤ)) : ∀ a : ℤ,
    L.foldl (sobelStep height width image i j chan) a =
      a + (L.map (fun dk =>
        sampleZero height width image chan ((i : ℤ) + dk.1.1)
          ((j : ℤ) + dk.1.2) * dk.2)).sum := by
  induction L with
  | nil => intro a; simp
  | cons dk L ih =>
    intro a
    rw [List.foldl_cons, List.map_cons, List.sum_cons, ih]
    simp only [sobelStep]
    by_cases hd : 0 ≤ (i : ℤ) + dk.1.1 ∧ (i : ℤ) + dk.1.1 < (height : ℤ) ∧
        0 ≤ (j : ℤ) + dk.1.2 ∧ (j : ℤ) + dk.1.2 < (width : ℤ)
    · rw [if_pos ?_]
      · unfold sampleZero
        rw [if_pos hd]
        ring
      · omega
    · rw [if_neg ?_]
      · unfold sampleZero
        rw [if_neg hd]
        ring
      · omega

theorem sobelAcc_gx (height width : ℕ) (image : Grid) (i j : ℕ)
    (chan : RGBTRIPLE → ℕ) :
    sobelAcc height width image i j Gx chan =
      sobelSpec height width image i j gxWeight chan := by
  unfold sobelAcc sobelSpec
  rw [foldl_sobelStep]
  simp only [window3, Gx, List.zip_cons_cons, List.zip_nil_right,
    List.map_cons, List.map_nil, List.sum_cons, List.sum_nil]
  norm_num [gxWeight]
  ring

theorem sobelAcc_gy (height width : ℕ) (image : Grid) (i j : ℕ)
    (chan : RGBTRIPLE → ℕ) :
    sobelAcc height width image i j Gy chan =
      sobelSpec height width image i j gyWeight chan := by
  unfold sobelAcc sobelSpec
  rw [foldl_sobelStep]
  simp only [window3, Gy, List.zip_cons_cons, List.zip_nil_right,
    List.map_cons, List.map_nil, List.sum_cons, List.sum_nil]
  norm_num [gyWeight]
  ring

theorem toByte_cap (v : ℕ) : toByte (if 255 < v then 255 else v) = min 255 v := by
  unfold toByte
  split_ifs <;> omega

/-- C2: EdgeDetect computes, per pixel and independently per channel,
the Sobel weighted sums `Gx`, `Gy` over the 3×3 neighborhood of the
original snapshot with out-of-bounds neighbors contributing a zero term
(not excluded from the kernel), and writes `round(sqrt(Gx² + Gy²))`
capped above at 255, with no cross-channel mixing (each output channel
is computed from that channel's input values only). -/
theorem edges_sobel_correct (height width : ℕ) (image : Grid) (i j : ℕ)
    (hg : validImage height width image) (hi : i < height) (hj : j < width) :
    getPix (edges height width image) i j =
      rgb (edgeSpecChan height width image i j RGBTRIPLE.rgbtRed)
        (edgeSpecChan height width image i j RGBTRIPLE.rgbtGreen)
        (edgeSpecChan height width image i j RGBTRIPLE.rgbtBlue) := by
  unfold edges
  rw [getPix_build height width _ hi hj]
  simp only [sobelAcc_gx, sobelAcc_gy]
  unfold edgeSpecChan rgb
  simp only [RGBTRIPLE.mk.injEq]
  exact ⟨toByte_cap _, toByte_cap _, toByte_cap _⟩

theorem edges_sobel_correct_witness :
    validImage 2 2 sampleGrid ∧
    getPix (edges 2 2 sampleGrid) 0 0 =
      rgb (edgeSpecChan 2 2 sampleGrid 0 0 RGBTRIPLE.rgbtRed)
        (edgeSpecChan 2 2 sampleGrid 0 0 RGBTRIPLE.rgbtGreen)
        (edgeSpecChan 2 2 sampleGrid 0 0 RGBTRIPLE.rgbtBlue) :=
  ⟨by decide, edges_sobel_correct 2 2 sampleGrid 0 0 (by decide)
    (by decide) (by decide)⟩


/-- C3 counterexample: the uniform 1×2 image of color (1,1,1) is not
mapped to the all-zero grid by EdgeDetect — the zero-padding at the
grid boundary produces a nonzero gradient there.  Both output cells
are (2,2,2). -/
theorem edges_uniform_counterexample :
    edges 1 2 [[rgb 1 1 1, rgb 1 1 1]] = [[rgb 2 2 2, rgb 2 2 2]] ∧
    edges 1 2 [[rgb 1 1 1, rgb 1 1 1]] ≠ [[rgb 0 0 0, rgb 0 0 0]] := by
  have hs : Nat.sqrt 4 = 2 := sqrt_eq_of (by norm_num) (by norm_num)
  have hgx0 : ∀ chan : RGBTRIPLE → ℕ, chan (rgb 1 1 1) = 1 →
      sobelAcc 1 2 [[rgb 1 1 1, rgb 1 1 1]] 0 0 Gx chan = 2 := by
    intro chan hc
    simp only [sobelAcc, window3, Gx, List.zip_cons_cons, List.zip_nil_right,
      List.foldl_cons, List.foldl_nil, sobelStep]
    norm_num [getPix, List.getD, hc]
  have hgx1 : ∀ chan : RGBTRIPLE → ℕ, chan (rgb 1 1 1) = 1 →
      sobelAcc 1 2 [[rgb 1 1 1, rgb 1 1 1]] 0 1 Gx chan = -2 := by
    intro chan hc
    simp only [sobelAcc, window3, Gx, List.zip_cons_cons, List.zip_nil_right,
      List.foldl_cons, List.foldl_nil, sobelStep]
    norm_num [getPix, List.getD, hc]
  have hgy0 : ∀ chan : RGBTRIPLE → ℕ, chan (rgb 1 1 1) = 1 →
      sobelAcc 1 2 [[rgb 1 1 1, rgb 1 1 1]] 0 0 Gy chan = 0 := by
    intro chan hc
    simp only [sobelAcc, window3, Gy, List.zip_cons_cons, List.zip_nil_right,
      List.foldl_cons, List.foldl_nil, sobelStep]
    norm_num [getPix, List.getD, hc]
  have hgy1 : ∀ chan : RGBTRIPLE → ℕ, chan (rgb 1 1 1) = 1 →
      sobelAcc 1 2 [[rgb 1 1 1, rgb 1 1 1]] 0 1 Gy chan = 0 := by
    intro chan hc
    simp only [sobelAcc, window3, Gy, List.zip_cons_cons, List.zip_nil_right,
      List.foldl_cons, List.foldl_nil, sobelStep]
    norm_num [getPix, List.getD, hc]
  have h1 : edges 1 2 [[rgb 1 1 1, rgb 1 1 1]] = [[rgb 2 2 2, rgb 2 2 2]] := by
    unfold edges
    have hr1 : List.range 1 = [0] := rfl
    have hr2 : List.range 2 = [0, 1] := rfl
    rw [hr1, hr2]
    simp only [List.map_cons, List.map_nil]
    rw [hgx0 _ rfl, hgx0 _ rfl, hgx0 _ rfl, hgx1 _ rfl, hgx1 _ rfl,
      hgx1 _ rfl, hgy0 _ rfl, hgy0 _ rfl, hgy0 _ rfl, hgy1 _ rfl,
      hgy1 _ rfl, hgy1 _ rfl]
    have ht : ((4 : ℤ)).toNat = 4 := rfl
    norm_num [roundSqrt, ht, hs, toByte, rgb]
  refine ⟨h1, ?_⟩
  rw [h1]
  decide

/-- C3 amended: for a uniform-color structurally valid grid, every
pixel whose full 3×3 neighborhood lies inside the grid (interior pixel)
is mapped to (0,0,0) by EdgeDetect; at boundary pixels the zero-padding
can produce nonzero output, as the counterexample shows. -/
theorem edges_uniform_interior_zero (height width : ℕ) (image : Grid)
    (p : RGBTRIPLE) (hg : validImage height width image)
    (hu : ∀ row ∈ image, ∀ q ∈ row, q = p)
    (i j : ℕ) (hi0 : 0 < i) (hi1 : i < height - 1)
    (hj0 : 0 < j) (hj1 : j < width - 1) :
    getPix (edges height width image) i j = rgb 0 0 0 := by
  have hi : i < height := by omega
  have hj : j < width := by omega
  have hsample : ∀ (chan : RGBTRIPLE → ℕ), ∀ d ∈ window3,
      sampleZero height width image chan ((i : ℤ) + d.1) ((j : ℤ) + d.2) =
        (chan p : ℤ) := by
    intro chan d hd
    simp only [window3] at hd
    fin_cases hd <;>
      (unfold sampleZero
       rw [if_pos ⟨by omega, by omega, by omega, by omega⟩]
       rw [getPix_uniform hg hu (by omega) (by omega)])
  have hgx : ∀ chan : RGBTRIPLE → ℕ,
      sobelSpec height width image i j gxWeight chan = 0 := by
    intro chan
    unfold sobelSpec
    rw [List.map_congr_left (fun d hd => by
      rw [hsample chan d hd] :
        ∀ d ∈ window3, gxWeight d.1 d.2 *
          sampleZero height width image chan ((i : ℤ) + d.1)
            ((j : ℤ) + d.2) = gxWeight d.1 d.2 * (chan p : ℤ))]
    simp only [window3, List.map_cons, List.map_nil, List.sum_cons,
      List.sum_nil]
    norm_num [gxWeight]
  have hgy : ∀ chan : RGBTRIPLE → ℕ,
      sobelSpec height width image i j gyWeight chan = 0 := by
    intro chan
    unfold sobelSpec
    rw [List.map_congr_left (fun d hd => by
      rw [hsample chan d hd] :
        ∀ d ∈ window3, gyWeight d.1 d.2 *
          sampleZero height width image chan ((i : ℤ) + d.1)
            ((j : ℤ) + d.2) = gyWeight d.1 d.2 * (chan p : ℤ))]
    simp only [window3, List.map_cons, List.map_nil, List.sum_cons,
      List.sum_nil]
    norm_num [gyWeight]
  unfold edges
  rw [getPix_build height width _ hi hj]
  simp only [sobelAcc_gx, sobelAcc_gy, hgx, hgy]
  norm_num [roundSqrt_zero, toByte, rgb]

theorem edges_uniform_interior_zero_witness :
    validImage 3 3 (List.replicate 3 (List.replicate 3 (rgb 5 6 7))) ∧
    getPix (edges 3 3 (List.replicate 3 (List.replicate 3 (rgb 5 6 7)))) 1 1 =
      rgb 0 0 0 :=
  ⟨by decide, edges_uniform_interior_zero 3 3
    (List.replicate 3 (List.replicate 3 (rgb 5 6 7))) (rgb 5 6 7)
    (by decide) (by decide) 1 1 (by decide) (by decide) (by decide)
    (by decide)⟩

theorem getPix_map {height width : ℕ} {image : Grid}
    (hg : validImage height width image) (f : RGBTRIPLE → RGBTRIPLE)
    {i j : ℕ} (hi : i < height) (hj : j < width) :
    getPix (image.map (fun row => row.map f)) i j =
      f (getPix image i j) := by
  obtain ⟨hlen, hw, _⟩ := hg
  have hi3 : i < image.length := by omega
  have hj3 : j < image[i].length := by
    rw [hw _ (List.getElem_mem hi3)]
    omega
  unfold getPix
  have hi2 : i < (image.map (fun row => row.map f)).length := by
    rw [List.length_map]
    omega
  rw [List.getD_eq_getElem _ _ hi2, List.getElem_map]
  have hj2 : j < (image[i].map f).length := by
    rw [List.length_map]
    omega
  rw [List.getD_eq_getElem _ _ hj2, List.getElem_map]
  rw [List.getD_eq_getElem _ _ hi3, List.getD_eq_getElem _ _ hj3]

/-- C6: Grayscale sets all three channels of every pixel to the same
value, namely the unweighted average of the pixel's three original
channel values rounded to nearest (half-up) and clamped to `[0, 255]`.
(For byte inputs the average has fractional part 0, 1/3 or 2/3, so a
tie never actually occurs.) -/
theorem grayscale_average_correct (height width : ℕ) (image : Grid)
    (i j : ℕ) (hg : validImage height width image)
    (hi : i < height) (hj : j < width) :
    (getPix (grayscale height width image) i j).rgbtRed =
      (getPix (grayscale height width image) i j).rgbtGreen ∧
    (getPix (grayscale height width image) i j).rgbtGreen =
      (getPix (grayscale height width image) i j).rgbtBlue ∧
    (getPix (grayscale height width image) i j).rgbtRed =
      graySpecVal (getPix image i j) := by
  have hb := getPix_le hg i j
  unfold grayscale
  rw [getPix_map hg _ hi hj]
  refine ⟨rfl, rfl, ?_⟩
  set q := getPix image i j with hq
  have harg : ((q.rgbtBlue + q.rgbtRed + q.rgbtGreen : ℕ) : ℚ) =
      ((q.rgbtRed + q.rgbtGreen + q.rgbtBlue : ℕ) : ℚ) := by
    push_cast
    ring
  have hsum : (q.rgbtRed + q.rgbtGreen + q.rgbtBlue : ℕ) ≤ 765 := by
    obtain ⟨h1, h2, h3⟩ := hb
    omega
  have hx255 : ((q.rgbtRed + q.rgbtGreen + q.rgbtBlue : ℕ) : ℚ) / 3 ≤ 255 := by
    rw [div_le_iff₀ (by norm_num)]
    have : ((q.rgbtRed + q.rgbtGreen + q.rgbtBlue : ℕ) : ℚ) ≤ 765 := by
      exact_mod_cast hsum
    linarith
  have hx0 : (0 : ℚ) ≤ ((q.rgbtRed + q.rgbtGreen + q.rgbtBlue : ℕ) : ℚ) / 3 :=
    div_nonneg (by positivity) (by norm_num)
  have h0 := stdRound_nonneg _ hx0
  have h255 := stdRound_le _ 255 hx255
  unfold graySpecVal
  rw [harg]
  dsimp only
  rw [byteOfInt_eq _ h0 h255]
  unfold clampTo255
  omega

theorem grayscale_average_correct_witness :
    validImage 2 2 sampleGrid ∧
    ((getPix (grayscale 2 2 sampleGrid) 0 1).rgbtRed =
      (getPix (grayscale 2 2 sampleGrid) 0 1).rgbtGreen ∧
    (getPix (grayscale 2 2 sampleGrid) 0 1).rgbtGreen =
      (getPix (grayscale 2 2 sampleGrid) 0 1).rgbtBlue ∧
    (getPix (grayscale 2 2 sampleGrid) 0 1).rgbtRed =
      graySpecVal (getPix sampleGrid 0 1)) :=
  ⟨by decide, grayscale_average_correct 2 2 sampleGrid 0 1 (by decide)
    (by decide) (by decide)⟩

/-! ## Reflect: the swap loop reverses each row -/

theorem swapPix_length (row : List RGBTRIPLE) (a b : ℕ) :
    (swapPix row a b).length = row.length := by
  unfold swapPix
  rw [List.length_set, List.length_set]

theorem reflectRow_foldl_length (width : ℕ) (L : List ℕ) :
    ∀ row : List RGBTRIPLE,
    (L.foldl (fun r j => swapPix r j (width - j - 1)) row).length =
      row.length := by
  induction L with
  | nil => intro row; rfl
  | cons x L ih =>
    intro row
    rw [List.foldl_cons, ih, swapPix_length]

theorem reflectRow_length (width : ℕ) (row : List RGBTRIPLE) :
    (reflectRow width row).length = row.length := by
  unfold reflectRow
  rw [reflectRow_foldl_length]

theorem swapPix_getElem? (row : List RGBTRIPLE) (a b : ℕ)
    (ha : a < row.length) (hb : b < row.length) (k : ℕ) :
    (swapPix row a b)[k]? =
      if k = b then row[a]? else if k = a then row[b]? else row[k]? := by
  unfold swapPix
  rw [List.getD_eq_getElem _ _ ha, List.getD_eq_getElem _ _ hb]
  by_cases hkb : k = b
  · rw [if_pos hkb]
    rw [List.getElem?_set, if_pos hkb.symm,
      if_pos (by rw [List.length_set]; omega)]
    rw [List.getElem?_eq_getElem ha]
  · rw [if_neg hkb]
    rw [List.getElem?_set, if_neg (fun h => hkb h.symm)]
    by_cases hka : k = a
    · rw [if_pos hka, List.getElem?_set, if_pos hka.symm, if_pos (by omega)]
      rw [List.getElem?_eq_getElem hb]
    · rw [if_neg hka, List.getElem?_set, if_neg (fun h => hka h.symm)]

theorem reflectRow_foldl_getElem? (width : ℕ) (row : List RGBTRIPLE)
    (hlen : row.length = width) : ∀ n, n ≤ width / 2 → ∀ k, k < width →
    ((List.range n).foldl (fun r j => swapPix r j (width - j - 1)) row)[k]? =
      (if k < n ∨ width - n ≤ k then row[width - 1 - k]? else row[k]?) := by
  intro n
  induction n with
  | zero =>
    intro _ k hk
    rw [List.range_zero, List.foldl_nil, if_neg (by omega)]
  | succ n ih =>
    intro hn k hk
    rw [List.range_succ, List.foldl_append, List.foldl_cons, List.foldl_nil]
    have hlenF : ((List.range n).foldl
        (fun r j => swapPix r j (width - j - 1)) row).length = width := by
      rw [reflectRow_foldl_length]
      exact hlen
    rw [swapPix_getElem? _ _ _ (by omega) (by omega) k]
    by_cases hkb : k = width - n - 1
    · rw [if_pos hkb, ih (by omega) n (by omega), if_neg (by omega)]
      rw [if_pos (by omega)]
      have : width - 1 - k = n := by omega
      rw [this]
    · rw [if_neg hkb]
      by_cases hka : k = n
      · rw [if_pos hka, ih (by omega) (width - n - 1) (by omega)]
        rw [if_neg (by omega), if_pos (by omega)]
        have h2 : width - 1 - k = width - n - 1 := by omega
        rw [h2]
      · rw [if_neg hka, ih (by omega) k hk]
        by_cases hc : k < n ∨ width - n ≤ k
        · rw [if_pos hc, if_pos (by omega)]
        · rw [if_neg hc, if_neg (by omega)]

theorem reflectRow_eq_reverse (width : ℕ) (row : List RGBTRIPLE)
    (hlen : row.length = width) : reflectRow width row = row.reverse := by
  apply List.ext_getElem?
  intro k
  by_cases hk : k < width
  · unfold reflectRow
    rw [reflectRow_foldl_getElem? width row hlen (width / 2) le_rfl k hk]
    rw [List.getElem?_reverse (by omega)]
    rw [hlen]
    by_cases hc : k < width / 2 ∨ width - width / 2 ≤ k
    · rw [if_pos hc]
    · rw [if_neg hc]
      have : width - 1 - k = k := by omega
      rw [this]
  · have h1 : (reflectRow width row).length = width := by
      rw [reflectRow_length, hlen]
    rw [List.getElem?_eq_none (by omega),
      List.getElem?_eq_none (by rw [List.length_reverse]; omega)]

/-- C7: Reflect is an involution — applying it twice to a structurally
valid grid returns the original grid, for both the top-level `reflect`
(the in-place swap loop) and `image_filters::reflect` (`std::reverse`
per row). -/
theorem reflect_involution (height width : ℕ) (image : Grid)
    (hg : validImage height width image) :
    reflect height width (reflect height width image) = image ∧
    image_filters.reflect (image_filters.reflect image) = image := by
  constructor
  · unfold reflect
    rw [List.map_map]
    have hrows : ∀ row ∈ image,
        (reflectRow width ∘ reflectRow width) row = id row := by
      intro row hrow
      have hlen : row.length = width := hg.2.1 row hrow
      have hlen2 : row.reverse.length = width := by
        rw [List.length_reverse]
        exact hlen
      simp only [Function.comp_apply, id_eq]
      rw [reflectRow_eq_reverse width row hlen,
        reflectRow_eq_reverse width row.reverse hlen2,
        List.reverse_reverse]
    rw [List.map_congr_left hrows, List.map_id]
  · unfold image_filters.reflect
    rw [List.map_map]
    have hrows : ∀ row ∈ image,
        (List.reverse ∘ List.reverse) row = id row := by
      intro row _
      simp only [Function.comp_apply, id_eq, List.reverse_reverse]
    rw [List.map_congr_left hrows, List.map_id]

theorem reflect_involution_witness :
    validImage 1 2 [[rgb 255 0 0, rgb 0 255 0]] ∧
    (reflect 1 2 (reflect 1 2 [[rgb 255 0 0, rgb 0 255 0]]) =
      [[rgb 255 0 0, rgb 0 255 0]] ∧
    image_filters.reflect (image_filters.reflect
      [[rgb 255 0 0, rgb 0 255 0]]) = [[rgb 255 0 0, rgb 0 255 0]]) :=
  ⟨by decide, reflect_involution 1 2 [[rgb 255 0 0, rgb 0 255 0]]
    (by decide)⟩

theorem validImage_map {height width : ℕ} {image : Grid}
    (hg : validImage height width image) (f : RGBTRIPLE → RGBTRIPLE)
    (hf : ∀ p, (f p).rgbtRed ≤ 255 ∧ (f p).rgbtGreen ≤ 255 ∧
      (f p).rgbtBlue ≤ 255) :
    validImage height width (image.map (fun row => row.map f)) := by
  obtain ⟨hlen, hw, hpix⟩ := hg
  refine ⟨by rw [List.length_map]; exact hlen, ?_, ?_⟩
  · intro row hrow
    rw [List.mem_map] at hrow
    obtain ⟨r, hr, rfl⟩ := hrow
    rw [List.length_map]
    exact hw r hr
  · intro row hrow p hp
    rw [List.mem_map] at hrow
    obtain ⟨r, hr, rfl⟩ := hrow
    rw [List.mem_map] at hp
    obtain ⟨q, _, rfl⟩ := hp
    exact hf q

theorem validImage_build (height width : ℕ) (f : ℕ → ℕ → RGBTRIPLE)
    (hf : ∀ i j, (f i j).rgbtRed ≤ 255 ∧ (f i j).rgbtGreen ≤ 255 ∧
      (f i j).rgbtBlue ≤ 255) :
    validImage height width ((List.range height).map
      (fun i => (List.range width).map (f i))) := by
  refine ⟨by simp, ?_, ?_⟩
  · intro row hrow
    rw [List.mem_map] at hrow
    obtain ⟨i, _, rfl⟩ := hrow
    simp
  · intro row hrow p hp
    rw [List.mem_map] at hrow
    obtain ⟨i, _, rfl⟩ := hrow
    rw [List.mem_map] at hp
    obtain ⟨j, _, rfl⟩ := hp
    exact hf i j

/-- C9: every one of the five transforms maps a structurally valid
`height × width` grid to a structurally valid `height × width` grid:
the row count, every row length, and the byte range of every channel
are preserved. -/
theorem transforms_preserve_validity (height width : ℕ) (image : Grid)
    (hg : validImage height width image) :
    validImage height width (grayscale height width image) ∧
    validImage height width (sepia height width image) ∧
    validImage height width (reflect height width image) ∧
    validImage height width (blur height width image) ∧
    validImage height width (edges height width image) := by
  refine ⟨?_, ?_, ?_, ?_, ?_⟩
  · unfold grayscale
    exact validImage_map hg _ (fun p =>
      ⟨byteOfInt_le _, byteOfInt_le _, byteOfInt_le _⟩)
  · unfold sepia
    exact validImage_map hg _ (fun p =>
      ⟨byteOfInt_le _, byteOfInt_le _, byteOfInt_le _⟩)
  · obtain ⟨hlen, hw, hpix⟩ := hg
    unfold reflect
    refine ⟨by rw [List.length_map]; exact hlen, ?_, ?_⟩
    · intro row hrow
      rw [List.mem_map] at hrow
      obtain ⟨r, hr, rfl⟩ := hrow
      rw [reflectRow_length]
      exact hw r hr
    · intro row hrow p hp
      rw [List.mem_map] at hrow
      obtain ⟨r, hr, rfl⟩ := hrow
      rw [reflectRow_eq_reverse width r (hw r hr), List.mem_reverse] at hp
      exact hpix r hr p hp
  · unfold blur
    exact validImage_build height width _ (fun i j =>
      ⟨byteOfInt_le _, byteOfInt_le _, byteOfInt_le _⟩)
  · unfold edges
    exact validImage_build height width _ (fun i j =>
      ⟨toByte_le _, toByte_le _, toByte_le _⟩)

theorem transforms_preserve_validity_witness :
    validImage 2 2 sampleGrid ∧
    (validImage 2 2 (grayscale 2 2 sampleGrid) ∧
     validImage 2 2 (sepia 2 2 sampleGrid) ∧
     validImage 2 2 (reflect 2 2 sampleGrid) ∧
     validImage 2 2 (blur 2 2 sampleGrid) ∧
     validImage 2 2 (edges 2 2 sampleGrid)) :=
  ⟨by decide, transforms_preserve_validity 2 2 sampleGrid (by decide)⟩

/-! ## Error analysis of the double model `fl` -/

theorem rne_nonneg (x : ℚ) (hx : 0 ≤ x) : 0 ≤ rne x := by
  unfold rne
  have h := Int.floor_nonneg.mpr hx
  split_ifs <;> omega

theorem rne_close (x : ℚ) : |(rne x : ℚ) - x| ≤ 1 / 2 := by
  unfold rne
  have h1 := Int.floor_le x
  have h2 := Int.lt_floor_add_one x
  split_ifs with a b c <;> (rw [abs_le]; push_cast; constructor <;> linarith)

theorem flAux_nonneg : ∀ (n : ℕ) (d x : ℚ), 0 ≤ d → 0 ≤ x →
    0 ≤ flAux n d x := by
  intro n
  induction n with
  | zero =>
    intro d x hd hx
    exact mul_nonneg hd (by exact_mod_cast rne_nonneg _ (div_nonneg hx hd))
  | succ n ih =>
    intro d x hd hx
    simp only [flAux]
    split_ifs
    · exact ih (d / 2) x (by linarith) hx
    · exact mul_nonneg hd (by exact_mod_cast rne_nonneg _ (div_nonneg hx hd))

theorem flAux_err : ∀ (n : ℕ) (d x : ℚ), 0 < d → 0 < x →
    |flAux n d x - x| ≤ x / 2 ^ 53 + d / 2 ^ (n + 1) := by
  have base : ∀ (d x : ℚ), 0 < d → 0 < x →
      |d * rne (x / d) - x| ≤ d / 2 := by
    intro d x hd hx
    have h := rne_close (x / d)
    have heq : d * (rne (x / d) : ℚ) - x = d * ((rne (x / d) : ℚ) - x / d) := by
      field_simp
      ring
    rw [heq, abs_mul, abs_of_pos hd]
    calc d * |(rne (x / d) : ℚ) - x / d| ≤ d * (1 / 2) :=
          mul_le_mul_of_nonneg_left h hd.le
      _ = d / 2 := by ring
  intro n
  induction n with
  | zero =>
    intro d x hd hx
    have := base d x hd hx
    have hx53 : 0 ≤ x / 2 ^ 53 := by positivity
    calc |flAux 0 d x - x| = |d * rne (x / d) - x| := rfl
      _ ≤ d / 2 := base d x hd hx
      _ ≤ x / 2 ^ 53 + d / 2 ^ (0 + 1) := by
          norm_num
          linarith
  | succ n ih =>
    intro d x hd hx
    simp only [flAux]
    split_ifs with hlt
    · have := ih (d / 2) x (by linarith) hx
      calc |flAux n (d / 2) x - x| ≤ x / 2 ^ 53 + d / 2 / 2 ^ (n + 1) := this
        _ = x / 2 ^ 53 + d / 2 ^ (n + 1 + 1) := by ring
    · have hstop : 2 ^ 52 * d ≤ x := le_of_not_lt hlt
      have hkey : d / 2 ≤ x / 2 ^ 53 := by
        rw [div_le_div_iff (by norm_num) (by norm_num)]
        nlinarith
      have hd2 : 0 ≤ d / 2 ^ (n + 1 + 1) := by positivity
      calc |d * rne (x / d) - x| ≤ d / 2 := base d x hd hx
        _ ≤ x / 2 ^ 53 + d / 2 ^ (n + 1 + 1) := by linarith

theorem fl_zero : fl 0 = 0 := by
  unfold fl
  rw [if_pos le_rfl]

theorem fl_nonneg (x : ℚ) (hx : 0 ≤ x) : 0 ≤ fl x := by
  unfold fl
  split_ifs with h
  · exact le_rfl
  · exact flAux_nonneg 70 _ x (by positivity) hx

/-- The rounding error of `fl`: at most half an ulp plus the
(astronomically small) fuel-exhaustion spacing. -/
theorem fl_err (x : ℚ) (hx : 0 ≤ x) :
    |fl x - x| ≤ x / 2 ^ 53 + ((2 : ℚ) ^ 114)⁻¹ := by
  unfold fl
  split_ifs with h
  · have hx0 : x = 0 := le_antisymm h hx
    subst hx0
    norm_num
  · have hpos : 0 < x := lt_of_not_le h
    have := flAux_err 70 ((2 ^ 43)⁻¹) x (by positivity) hpos
    have hconst : ((2 : ℚ) ^ 43)⁻¹ / 2 ^ (70 + 1) = ((2 : ℚ) ^ 114)⁻¹ := by
      rw [div_eq_mul_inv, ← mul_inv]
      norm_num
    rw [hconst] at this
    exact this

/-- One sepia product term: rounding a matrix constant to `double` and
multiplying by a byte value (with one more rounding) stays within
`2^-40` of the exact product. -/
theorem flmul_close (c : ℚ) (v : ℕ) (hc0 : 0 ≤ c) (hc1 : c ≤ 1)
    (hv : v ≤ 255) :
    |fl (fl c * v) - c * v| ≤ 1 / 2 ^ 40 ∧
      0 ≤ fl (fl c * v) ∧ fl (fl c * v) ≤ 300 := by
  have hv' : (v : ℚ) ≤ 255 := by exact_mod_cast hv
  have hv0 : (0 : ℚ) ≤ (v : ℚ) := by positivity
  have ha := fl_err c hc0
  have ha0 := fl_nonneg c hc0
  rw [abs_le] at ha
  have hc53 : c / 2 ^ 53 ≤ 1 / 2 ^ 53 := by linarith
  have ha_up : fl c ≤ 2 := by linarith [ha.2]
  have hp0 : 0 ≤ fl c * (v : ℚ) := mul_nonneg ha0 hv0
  have ht := fl_err (fl c * v) hp0
  have ht0 := fl_nonneg _ hp0
  rw [abs_le] at ht
  have hp_up : fl c * (v : ℚ) ≤ 510 := by nlinarith
  have e2a : (fl c - c) * v ≤ (c / 2 ^ 53 + ((2 : ℚ) ^ 114)⁻¹) * v :=
    mul_le_mul_of_nonneg_right ha.2 hv0
  have e2b : -((c / 2 ^ 53 + ((2 : ℚ) ^ 114)⁻¹) * v) ≤ (fl c - c) * v := by
    nlinarith [ha.1]
  have e2c : (c / 2 ^ 53 + ((2 : ℚ) ^ 114)⁻¹) * v ≤
      (1 / 2 ^ 53 + ((2 : ℚ) ^ 114)⁻¹) * 255 := by
    nlinarith
  refine ⟨?_, ht0, ?_⟩
  · rw [abs_le]
    constructor
    · nlinarith [ht.1, e2b, e2c, hp_up]
    · nlinarith [ht.2, e2a, e2c, hp_up]
  · nlinarith [ht.2, hp_up]

/-- The full `double` evaluation of a sepia channel stays within
`1/2000` of the exact matrix value. -/
theorem sepiaDbl_close (c1 c2 c3 : ℚ) (R G B : ℕ)
    (hc1 : 0 ≤ c1) (hc1' : c1 ≤ 1) (hc2 : 0 ≤ c2) (hc2' : c2 ≤ 1)
    (hc3 : 0 ≤ c3) (hc3' : c3 ≤ 1)
    (hR : R ≤ 255) (hG : G ≤ 255) (hB : B ≤ 255) :
    |sepiaDbl c1 c2 c3 R G B - (c1 * R + c2 * G + c3 * B)| ≤ 1 / 2000 := by
  unfold sepiaDbl
  obtain ⟨e1, p1, u1⟩ := flmul_close c1 R hc1 hc1' hR
  obtain ⟨e2, p2, u2⟩ := flmul_close c2 G hc2 hc2' hG
  obtain ⟨e3, p3, u3⟩ := flmul_close c3 B hc3 hc3' hB
  rw [abs_le] at e1 e2 e3
  have hs0 : 0 ≤ fl (fl c1 * R) + fl (fl c2 * G) := by linarith
  have hs_up : fl (fl c1 * R) + fl (fl c2 * G) ≤ 600 := by linarith
  have es := fl_err (fl (fl c1 * R) + fl (fl c2 * G)) hs0
  have es0 := fl_nonneg (fl (fl c1 * R) + fl (fl c2 * G)) hs0
  rw [abs_le] at es
  have hs1_up : fl (fl (fl c1 * R) + fl (fl c2 * G)) ≤ 601 := by linarith
  have hf0 : 0 ≤ fl (fl (fl c1 * R) + fl (fl c2 * G)) + fl (fl c3 * B) := by
    linarith [fl_nonneg (fl (fl c1 * R) + fl (fl c2 * G)) hs0]
  have hst_up : fl (fl (fl c1 * R) + fl (fl c2 * G)) + fl (fl c3 * B) ≤ 901 := by
    linarith
  have ef := fl_err (fl (fl (fl c1 * R) + fl (fl c2 * G)) + fl (fl c3 * B)) hf0
  rw [abs_le] at ef
  rw [abs_le]
  constructor <;> linarith

/-- If `t` lies within `1/2000` of a rational with denominator 1000,
then `stdRound t` (`std::round` of the computed `double`) is a nearest
integer to that exact value. -/
theorem stdRound_grid_close (t : ℚ) (k : ℤ)
    (h : |t - k / 1000| ≤ 1 / 2000) :
    |((stdRound t : ℤ) : ℚ) - k / 1000| ≤ 1 / 2 := by
  rw [abs_le] at h
  unfold stdRound
  have h1 := Int.floor_le (t + 1 / 2)
  have h2 := Int.lt_floor_add_one (t + 1 / 2)
  have hu : 1000 * ⌊t + 1 / 2⌋ ≤ k + 500 := by
    have hq : (1000 * ⌊t + 1 / 2⌋ : ℚ) < (k : ℚ) + 501 := by
      push_cast
      linarith
    have : (1000 * ⌊t + 1 / 2⌋ : ℤ) < k + 501 := by exact_mod_cast hq
    omega
  have hl : k - 500 ≤ 1000 * ⌊t + 1 / 2⌋ := by
    have hq : (k : ℚ) - 501 < (1000 * ⌊t + 1 / 2⌋ : ℚ) := by
      push_cast
      linarith
    have : (k : ℤ) - 501 < 1000 * ⌊t + 1 / 2⌋ := by exact_mod_cast hq
    omega
  rw [abs_le]
  constructor
  · have : ((k : ℚ) - 500) ≤ (1000 * ⌊t + 1 / 2⌋ : ℤ) := by exact_mod_cast hl
    push_cast at this ⊢
    linarith
  · have : ((1000 * ⌊t + 1 / 2⌋ : ℤ) : ℚ) ≤ (k : ℚ) + 500 := by exact_mod_cast hu
    push_cast at this ⊢
    linarith

theorem sepiaDbl_zero (c1 c2 c3 : ℚ) : sepiaDbl c1 c2 c3 0 0 0 = 0 := by
  unfold sepiaDbl
  norm_num [fl_zero]

/-- C5: Sepia maps every pixel of a structurally valid grid to the
triple obtained by evaluating the fixed sepia matrix on the original
channel values for all three outputs, rounding each to a nearest
integer and clamping to `[0, 255]` — at an exact `.5` tie both
neighbors are nearest and the `double` arithmetic of the source picks
the side; in particular (0,0,0) maps to (0,0,0) and (255,255,255) maps
to (255,255,239). -/
theorem sepia_matrix_correct (height width : ℕ) (image : Grid) (i j : ℕ)
    (hg : validImage height width image) (hi : i < height) (hj : j < width) :
    (∃ r1 r2 r3 : ℤ,
      |(r1 : ℚ) - (0.393 * (getPix image i j).rgbtRed +
          0.769 * (getPix image i j).rgbtGreen +
          0.189 * (getPix image i j).rgbtBlue)| ≤ 1 / 2 ∧
      |(r2 : ℚ) - (0.349 * (getPix image i j).rgbtRed +
          0.686 * (getPix image i j).rgbtGreen +
          0.168 * (getPix image i j).rgbtBlue)| ≤ 1 / 2 ∧
      |(r3 : ℚ) - (0.272 * (getPix image i j).rgbtRed +
          0.534 * (getPix image i j).rgbtGreen +
          0.131 * (getPix image i j).rgbtBlue)| ≤ 1 / 2 ∧
      getPix (sepia height width image) i j =
        rgb (clampTo255 r1) (clampTo255 r2) (clampTo255 r3)) ∧
    getPix (sepia 1 1 [[rgb 0 0 0]]) 0 0 = rgb 0 0 0 ∧
    getPix (sepia 1 1 [[rgb 255 255 255]]) 0 0 = rgb 255 255 239 := by
  obtain ⟨hbR, hbG, hbB⟩ := getPix_le hg i j
  refine ⟨?_, ?_, ?_⟩
  · refine ⟨stdRound (sepiaDbl 0.393 0.769 0.189 (getPix image i j).rgbtRed
        (getPix image i j).rgbtGreen (getPix image i j).rgbtBlue),
      stdRound (sepiaDbl 0.349 0.686 0.168 (getPix image i j).rgbtRed
        (getPix image i j).rgbtGreen (getPix image i j).rgbtBlue),
      stdRound (sepiaDbl 0.272 0.534 0.131 (getPix image i j).rgbtRed
        (getPix image i j).rgbtGreen (getPix image i j).rgbtBlue),
      ?_, ?_, ?_, ?_⟩
    · have hcl := sepiaDbl_close 0.393 0.769 0.189 _ _ _ (by norm_num)
        (by norm_num) (by norm_num) (by norm_num) (by norm_num) (by norm_num)
        hbR hbG hbB
      have hk : (0.393 * (getPix image i j).rgbtRed +
          0.769 * (getPix image i j).rgbtGreen +
          0.189 * (getPix image i j).rgbtBlue : ℚ) =
          ((393 * (getPix image i j).rgbtRed +
            769 * (getPix image i j).rgbtGreen +
            189 * (getPix image i j).rgbtBlue : ℕ) : ℤ) / 1000 := by
        push_cast
        norm_num
        ring
      rw [hk] at hcl ⊢
      exact stdRound_grid_close _ _ hcl
    · have hcl := sepiaDbl_close 0.349 0.686 0.168 _ _ _ (by norm_num)
        (by norm_num) (by norm_num) (by norm_num) (by norm_num) (by norm_num)
        hbR hbG hbB
      have hk : (0.349 * (getPix image i j).rgbtRed +
          0.686 * (getPix image i j).rgbtGreen +
          0.168 * (getPix image i j).rgbtBlue : ℚ) =
          ((349 * (getPix image i j).rgbtRed +
            686 * (getPix image i j).rgbtGreen +
            168 * (getPix image i j).rgbtBlue : ℕ) : ℤ) / 1000 := by
        push_cast
        norm_num
        ring
      rw [hk] at hcl ⊢
      exact stdRound_grid_close _ _ hcl
    · have hcl := sepiaDbl_close 0.272 0.534 0.131 _ _ _ (by norm_num)
        (by norm_num) (by norm_num) (by norm_num) (by norm_num) (by norm_num)
        hbR hbG hbB
      have hk : (0.272 * (getPix image i j).rgbtRed +
          0.534 * (getPix image i j).rgbtGreen +
          0.131 * (getPix image i j).rgbtBlue : ℚ) =
          ((272 * (getPix image i j).rgbtRed +
            534 * (getPix image i j).rgbtGreen +
            131 * (getPix image i j).rgbtBlue : ℕ) : ℤ) / 1000 := by
        push_cast
        norm_num
        ring
      rw [hk] at hcl ⊢
      exact stdRound_grid_close _ _ hcl
    · unfold sepia
      rw [getPix_map hg _ hi hj]
      unfold rgb
      simp only [RGBTRIPLE.mk.injEq]
      refine ⟨?_, ?_, ?_⟩ <;>
        (rw [byteOfInt_eq _ (by omega) (by omega)]
         unfold clampTo255
         omega)
  · have hvalid : validImage 1 1 [[rgb 0 0 0]] := by decide
    unfold sepia
    rw [getPix_map hvalid _ (by norm_num) (by norm_num)]
    have hpix : getPix [[rgb 0 0 0]] 0 0 = rgb 0 0 0 := rfl
    have hch : (rgb 0 0 0).rgbtRed = 0 ∧ (rgb 0 0 0).rgbtGreen = 0 ∧
        (rgb 0 0 0).rgbtBlue = 0 := by decide
    rw [hpix, hch.1, hch.2.1, hch.2.2, sepiaDbl_zero, sepiaDbl_zero,
      sepiaDbl_zero]
    have hz : stdRound 0 = 0 := by
      unfold stdRound
      norm_num
    rw [hz]
    rfl
  · have hvalid : validImage 1 1 [[rgb 255 255 255]] := by decide
    unfold sepia
    rw [getPix_map hvalid _ (by norm_num) (by norm_num)]
    have hpix : getPix [[rgb 255 255 255]] 0 0 = rgb 255 255 255 := rfl
    have hch : (rgb 255 255 255).rgbtRed = 255 ∧
        (rgb 255 255 255).rgbtGreen = 255 ∧
        (rgb 255 255 255).rgbtBlue = 255 := by decide
    rw [hpix, hch.1, hch.2.1, hch.2.2]
    have hr : stdRound (sepiaDbl 0.393 0.769 0.189 255 255 255) = 345 := by
      have hcl := sepiaDbl_close 0.393 0.769 0.189 255 255 255 (by norm_num)
        (by norm_num) (by norm_num) (by norm_num) (by norm_num) (by norm_num)
        le_rfl le_rfl le_rfl
      rw [abs_le] at hcl
      have hv : (0.393 * (255 : ℕ) + 0.769 * (255 : ℕ) +
          0.189 * (255 : ℕ) : ℚ) = 344.505 := by
        push_cast
        norm_num
      rw [hv] at hcl
      unfold stdRound
      rw [Int.floor_eq_iff]
      constructor
      · push_cast
        linarith [hcl.1]
      · push_cast
        linarith [hcl.2]
    have hgr : stdRound (sepiaDbl 0.349 0.686 0.168 255 255 255) = 307 := by
      have hcl := sepiaDbl_close 0.349 0.686 0.168 255 255 255 (by norm_num)
        (by norm_num) (by norm_num) (by norm_num) (by norm_num) (by norm_num)
        le_rfl le_rfl le_rfl
      rw [abs_le] at hcl
      have hv : (0.349 * (255 : ℕ) + 0.686 * (255 : ℕ) +
          0.168 * (255 : ℕ) : ℚ) = 306.765 := by
        push_cast
        norm_num
      rw [hv] at hcl
      unfold stdRound
      rw [Int.floor_eq_iff]
      constructor
      · push_cast
        linarith [hcl.1]
      · push_cast
        linarith [hcl.2]
    have hbl : stdRound (sepiaDbl 0.272 0.534 0.131 255 255 255) = 239 := by
      have hcl := sepiaDbl_close 0.272 0.534 0.131 255 255 255 (by norm_num)
        (by norm_num) (by norm_num) (by norm_num) (by norm_num) (by norm_num)
        le_rfl le_rfl le_rfl
      rw [abs_le] at hcl
      have hv : (0.272 * (255 : ℕ) + 0.534 * (255 : ℕ) +
          0.131 * (255 : ℕ) : ℚ) = 238.935 := by
        push_cast
        norm_num
      rw [hv] at hcl
      unfold stdRound
      rw [Int.floor_eq_iff]
      constructor
      · push_cast
        linarith [hcl.1]
      · push_cast
        linarith [hcl.2]
    rw [hr, hgr, hbl]
    unfold rgb byteOfInt
    simp only [RGBTRIPLE.mk.injEq]
    refine ⟨by omega, by omega, by omega⟩

theorem sepia_matrix_correct_witness :
    validImage 2 2 sampleGrid ∧
    (∃ r1 r2 r3 : ℤ,
      |(r1 : ℚ) - (0.393 * (getPix sampleGrid 1 0).rgbtRed +
          0.769 * (getPix sampleGrid 1 0).rgbtGreen +
          0.189 * (getPix sampleGrid 1 0).rgbtBlue)| ≤ 1 / 2 ∧
      |(r2 : ℚ) - (0.349 * (getPix sampleGrid 1 0).rgbtRed +
          0.686 * (getPix sampleGrid 1 0).rgbtGreen +
          0.168 * (getPix sampleGrid 1 0).rgbtBlue)| ≤ 1 / 2 ∧
      |(r3 : ℚ) - (0.272 * (getPix sampleGrid 1 0).rgbtRed +
          0.534 * (getPix sampleGrid 1 0).rgbtGreen +
          0.131 * (getPix sampleGrid 1 0).rgbtBlue)| ≤ 1 / 2 ∧
      getPix (sepia 2 2 sampleGrid) 1 0 =
        rgb (clampTo255 r1) (clampTo255 r2) (clampTo255 r3)) :=
  ⟨by decide, (sepia_matrix_correct 2 2 sampleGrid 1 0 (by decide)
    (by decide) (by decide)).1⟩
